import Mathlib

/-!
Verification of the crawl-frontier and fetch-policy core of `scraper.py`
(repository `Jay-R-J/my-spider`).

URLs are modelled as `List Char`.  The source calls Python's
`urllib.parse.urlparse`; that library routine is embedded below
(`urlsplit` / `urlparse`) following the CPython implementation: the input is
stripped of leading/trailing C0-control-or-space characters, ASCII tab/CR/LF
are removed, then the scheme, authority (netloc), fragment, query and params
are split off.  CPython raises `ValueError` ("Invalid IPv6 URL") when the
netloc contains `[` without `]` or vice versa; that is modelled with
`Except Unit`.  The additional CPython validations that can only fire on URLs
whose netloc contains brackets or non-ASCII characters (bracketed-host
validation, NFKC netloc check) are not modelled; no theorem below evaluates
the model on such inputs.
-/

set_option maxHeartbeats 1000000

deriving instance DecidableEq for Except

namespace Spider

/-- URLs and their components are lists of characters. -/
abbrev Str := List Char

/-- Result of `urllib.parse.urlparse`: the six components of the ParseResult
tuple. -/
structure UrlParts where
  scheme : Str
  netloc : Str
  path : Str
  params : Str
  query : Str
  fragment : Str
  deriving DecidableEq

/-- Characters stripped by CPython from both ends of the URL before parsing
(`_WHATWG_C0_CONTROL_OR_SPACE`): code points `0x00`–`0x20`. -/
def isC0OrSpace (c : Char) : Bool := c.toNat ≤ 32

/-- Characters removed everywhere by CPython before parsing
(`_UNSAFE_URL_BYTES_TO_REMOVE`): tab, carriage return, line feed. -/
def isUnsafeUrlByte (c : Char) : Bool := c = '\t' || c = '\r' || c = '\n'

/-- Strip `isC0OrSpace` characters from both ends (Python `str.strip`). -/
def wsStrip (l : Str) : Str :=
  ((l.dropWhile isC0OrSpace).reverse.dropWhile isC0OrSpace).reverse

/-- The cleanup CPython `urlsplit` performs before splitting: strip, then
remove unsafe bytes. -/
def cleanUrl (l : Str) : Str := (wsStrip l).filter (fun c => !isUnsafeUrlByte c)

/-- CPython `scheme_chars`: letters, digits, `+`, `-`, `.`. -/
def isSchemeChar (c : Char) : Bool :=
  c.isAlpha || c.isDigit || c = '+' || c = '-' || c = '.'

/-- ASCII lowercasing, as Python `str.lower` acts on the validated
(all-ASCII) scheme characters. -/
def pyLower (c : Char) : Char :=
  if 65 ≤ c.toNat ∧ c.toNat ≤ 90 then Char.ofNat (c.toNat + 32) else c

/-- Scheme extraction step of CPython `urlsplit`: if the text before the first
`:` is a nonempty valid scheme (leading ASCII letter, rest in `scheme_chars`),
it is lowercased and removed together with the colon; otherwise the URL is
left whole and the scheme is empty.  (`dropWhile = []` is "no colon found",
`takeWhile = []` is "colon at position 0", i.e. CPython's `i > 0` test.) -/
def splitScheme (l : Str) : Str × Str :=
  if l.dropWhile (· ≠ ':') = [] ∨ l.takeWhile (· ≠ ':') = [] then ([], l)
  else if ((l.takeWhile (· ≠ ':')).headD ' ').isAlpha &&
      (l.takeWhile (· ≠ ':')).tail.all isSchemeChar then
    ((l.takeWhile (· ≠ ':')).map pyLower, (l.dropWhile (· ≠ ':')).tail)
  else ([], l)

/-- Netloc delimiters of CPython `_splitnetloc`: `/`, `?`, `#`. -/
def isNetlocDelim (c : Char) : Bool := c = '/' || c = '?' || c = '#'

/-- CPython `_splitnetloc`: the netloc runs to the first `/`, `?` or `#`. -/
def splitNetloc (l : Str) : Str × Str :=
  (l.takeWhile (fun c => !isNetlocDelim c), l.dropWhile (fun c => !isNetlocDelim c))

/-- Python `str.split(d, 1)` when `d` occurs in the string. -/
def splitOnceAt (d : Char) (l : Str) : Str × Str :=
  (l.takeWhile (· ≠ d), (l.dropWhile (· ≠ d)).drop 1)

/-- CPython `urlsplit`.  Returns `Except.error` exactly where CPython raises
`ValueError "Invalid IPv6 URL"` (unbalanced square brackets in the netloc;
CPython performs the check inside the `url[:2] == '//'` branch, but since the
netloc is empty otherwise — making the check vacuous — it is stated once
here). -/
def urlsplit (url0 : Str) : Except Unit UrlParts :=
  let url1 := cleanUrl url0
  let sch := splitScheme url1
  let nl := if sch.2.take 2 = ['/', '/'] then splitNetloc (sch.2.drop 2) else ([], sch.2)
  if (nl.1.contains '[' != nl.1.contains ']') then .error ()
  else
    let fr := if '#' ∈ nl.2 then splitOnceAt '#' nl.2 else (nl.2, [])
    let qu := if '?' ∈ fr.1 then splitOnceAt '?' fr.1 else (fr.1, [])
    .ok ⟨sch.1, nl.1, qu.1, [], qu.2, fr.2⟩

/-- The segment of a path after its last `/` (used by `_splitparams`, which
searches for `;` starting at `rfind('/')`). -/
def afterLastSlash (l : Str) : Str := (l.reverse.takeWhile (· ≠ '/')).reverse

/-- CPython `_splitparams`. -/
def splitParamsPath (p0 : Str) : Str × Str :=
  if '/' ∈ p0 then
    let seg := afterLastSlash p0
    if ';' ∈ seg then
      (p0.take (p0.length - seg.length) ++ seg.takeWhile (· ≠ ';'),
       (seg.dropWhile (· ≠ ';')).drop 1)
    else (p0, [])
  else splitOnceAt ';' p0

/-- The params-splitting step of CPython `urlparse`: only performed when the
path contains `;`. -/
def stepParams (p0 : Str) : Str × Str :=
  if ';' ∈ p0 then splitParamsPath p0 else (p0, [])

/-- CPython `urlparse`: `urlsplit` followed by params splitting. -/
def urlparse (url0 : Str) : Except Unit UrlParts :=
  match urlsplit url0 with
  | .error e => .error e
  | .ok sp =>
    let pp := stepParams sp.path
    .ok { sp with path := pp.1, params := pp.2 }

/-- Function `normalize_url` from the source: keep `scheme://netloc`+`path`, dropping
params, query and fragment (`f"{parsed.scheme}://{parsed.netloc}{parsed.path}"`). -/
def normalize_url (url : Str) : Except Unit Str :=
  match urlparse url with
  | .error e => .error e
  | .ok p => .ok (p.scheme ++ ':' :: '/' :: '/' :: (p.netloc ++ p.path))

/-- Function `is_allowed_domain` from the source, with the module-level
`ALLOWED_DOMAINS` made an explicit parameter: empty allow-list means allow
everything (checked before parsing); otherwise the URL's netloc must equal an
entry or end with `.` followed by an entry. -/
def is_allowed_domain (allowList : List Str) (url : Str) : Except Unit Bool :=
  if allowList.isEmpty then .ok true
  else
    match urlparse url with
    | .error e => .error e
    | .ok p =>
      .ok (allowList.any (fun a => p.netloc == a || List.isSuffixOf ('.' :: a) p.netloc))

/-! ### Configuration constants from the source's configuration section -/

/-- Constant `MAX_PAGES_PER_RUN` from the source. -/
def MAX_PAGES_PER_RUN : Nat := 15

/-- Constant `REQUEST_DELAY` from the source (seconds). -/
def REQUEST_DELAY : Nat := 2

/-- Constant `USER_AGENT` from the source. -/
def USER_AGENT : Str :=
  "Mozilla/5.0 (compatible; MyPersonalSpider/1.0; +https://github.com/Jay-R-J/my-spider)".data

/-- Constant `ALLOWED_DOMAINS` from the source. -/
def ALLOWED_DOMAINS : List Str :=
  ["baike.baidu.com".data, "zhidao.baidu.com".data, "tieba.baidu.com".data,
   "github.com".data, "stackoverflow.com".data, "wikipedia.org".data, "juejin.cn".data]

/-! ### Robots cache (`robot_parsers`, `get_robots_entry`, `can_fetch`)

A `RobotFileParser` whose `read()` succeeded is modelled as an abstract
decision function (its `can_fetch(useragent, url)` method).  The network is an
oracle `net : Str → Option RobotParser`: `none` means retrieving or parsing
`https://{domain}/robots.txt` raises, `some p` means it succeeds and yields
parser `p`.  The module-level `robot_parsers` dict and the warnings issued by
`logging.warning` are threaded explicitly as `RobotsState`. -/

/-- A successfully-read `RobotFileParser`: an abstract allow/deny decision. -/
structure RobotParser where
  canFetchFn : Str → Str → Bool

/-- The module-level mutable robots state: the `robot_parsers` cache (an
association list modelling the dict) and the list of domains for which a
read-failure warning has been logged, in order. -/
structure RobotsState where
  cache : List (Str × Option RobotParser)
  warnLog : List Str

/-- The robots-cache lookup routine of the source (there called with a name
ending in parser; renamed here): return the cached entry if present;
otherwise consult the network, caching the parser on success and `None`
(plus a logged warning) on failure. -/
def get_robots_entry (net : Str → Option RobotParser) (s : RobotsState)
    (domain : Str) : Option RobotParser × RobotsState :=
  match s.cache.lookup domain with
  | some v => (v, s)
  | none =>
    match net domain with
    | some p => (some p, { s with cache := (domain, some p) :: s.cache })
    | none =>
      (none, { cache := (domain, none) :: s.cache, warnLog := s.warnLog ++ [domain] })

/-- Function `can_fetch` from the source: derive the URL's netloc, get (or build) its
robots parser; a `None` cache entry (failed retrieval) means allow. -/
def can_fetch (net : Str → Option RobotParser) (s : RobotsState) (url : Str)
    (ua : Str) : Except Unit (Bool × RobotsState) :=
  match urlparse url with
  | .error e => .error e
  | .ok p =>
    let r := get_robots_entry net s p.netloc
    match r.1 with
    | none => .ok (true, r.2)
    | some parser => .ok (parser.canFetchFn ua url, r.2)

/-! ### The run loop of `scrape`

The fetch of a single URL (`requests.get` + `raise_for_status`) is the oracle
`fetchO : Str → Option (List Str)`: `none` means the request raises (transport
error, timeout or non-2xx status), `some links` means it succeeds and
`extract_links` applied to the fetched page yields `links` (HTML parsing and
content extraction are external collaborators; their results enter the core
only through this link list, and the extractor itself is modelled as total).
The loop additionally records a ghost trace of events: dequeues, gate skips,
fetch attempts, and the `time.sleep(REQUEST_DELAY)` pauses. -/

/-- Ghost events recording what one run of the loop does, in order. -/
inductive Event where
  | dequeue (u : Str)
  | skipVisited (u : Str)
  | skipDomain (u : Str)
  | skipRobots (u : Str)
  | fetchAttempt (u : Str) (success : Bool)
  | sleep
  deriving DecidableEq

/-- The mutable state of one run of `scrape`'s while-loop (everything except
the in-memory pending list, which is passed separately). -/
structure LoopState where
  visited : List Str
  pagesCrawled : Nat
  newLinksFound : Nat
  failedUrls : List Str
  newPending : List Str
  pageDetails : List Str
  robots : RobotsState

/-- Python `set.add`: add an element to a set represented as a duplicate-free list. -/
def insertStr (v : List Str) (u : Str) : List Str := if u ∈ v then v else v ++ [u]

/-- The link-discovery loop of the source: each extracted link not already in
`visited` or `new_pending` and passing the domain gate is appended to
`new_pending`, counting it in `new_links_found`. -/
def discover (allow : List Str) (visited : List Str) (np : List Str) (cnt : Nat) :
    List Str → Except Unit (List Str × Nat)
  | [] => .ok (np, cnt)
  | link :: ls =>
    if link ∈ visited ∨ link ∈ np then discover allow visited np cnt ls
    else
      match is_allowed_domain allow link with
      | .error e => .error e
      | .ok b =>
        if b then discover allow visited (np ++ [link]) (cnt + 1) ls
        else discover allow visited np cnt ls

/-- Prepend this iteration's ghost events to the trace of the rest of the
run. -/
def prependTrace (evs : List Event) :
    Except Unit (LoopState × List Str × List Event) →
    Except Unit (LoopState × List Str × List Event)
  | .error e => .error e
  | .ok (s, r, tr) => .ok (s, r, evs ++ tr)

/-- The while-loop of `scrape`.  Arguments: allow-list, page budget, robots
network oracle, fetch oracle, the in-memory pending list, and the loop state.
Returns the final state, the remaining pending list, and the event trace.
Python exceptions escaping the loop (a `ValueError` from `urlparse`) are the
`.error` outcome; a fetch failure is caught by the source's `try`/`except`
and only appends to `failed_urls`. -/
def runLoop (allow : List Str) (maxPages : Nat) (net : Str → Option RobotParser)
    (fetchO : Str → Option (List Str)) :
    List Str → LoopState → Except Unit (LoopState × List Str × List Event)
  | [], s => .ok (s, [], [])
  | url :: rest, s =>
    if maxPages ≤ s.pagesCrawled then .ok (s, url :: rest, [])
    else
      match normalize_url url with
      | .error e => .error e
      | .ok normUrl =>
        if normUrl ∈ s.visited then
          prependTrace [.dequeue url, .skipVisited url]
            (runLoop allow maxPages net fetchO rest s)
        else
          match is_allowed_domain allow url with
          | .error e => .error e
          | .ok dom =>
            if dom = false then
              prependTrace [.dequeue url, .skipDomain url]
                (runLoop allow maxPages net fetchO rest s)
            else
              match can_fetch net s.robots url USER_AGENT with
              | .error e => .error e
              | .ok (cf, rs) =>
                if cf = false then
                  prependTrace [.dequeue url, .skipRobots url]
                    (runLoop allow maxPages net fetchO rest
                      { s with visited := insertStr s.visited normUrl, robots := rs })
                else
                  match fetchO url with
                  | none =>
                    prependTrace [.dequeue url, .fetchAttempt url false]
                      (runLoop allow maxPages net fetchO rest
                        { s with robots := rs, failedUrls := s.failedUrls ++ [url] })
                  | some links =>
                    match discover allow s.visited s.newPending s.newLinksFound links with
                    | .error e => .error e
                    | .ok np2 =>
                      prependTrace [.dequeue url, .fetchAttempt url true, .sleep]
                        (runLoop allow maxPages net fetchO rest
                          { visited := insertStr s.visited normUrl
                            pagesCrawled := s.pagesCrawled + 1
                            newLinksFound := np2.2
                            failedUrls := s.failedUrls
                            newPending := np2.1
                            pageDetails := s.pageDetails ++ [url]
                            robots := rs })

/-- The finalize-time deduplication of the source: walk the merged pending
list, keeping each entry whose canonical form is neither in `seen` nor in
`visited` (and recording its canonical form in `seen`). -/
def dedupPending (visited : List Str) (seen : List Str) (acc : List Str) :
    List Str → Except Unit (List Str)
  | [] => .ok acc
  | u :: us =>
    match normalize_url u with
    | .error e => .error e
    | .ok nu =>
      if nu ∉ seen ∧ nu ∉ visited then
        dedupPending visited (seen ++ [nu]) (acc ++ [u]) us
      else dedupPending visited seen acc us

/-- Seed filtering: `[s for s in seeds if is_allowed_domain(s)]`. -/
def filterAllowed (allow : List Str) : List Str → Except Unit (List Str)
  | [] => .ok []
  | u :: us =>
    match is_allowed_domain allow u with
    | .error e => .error e
    | .ok b =>
      match filterAllowed allow us with
      | .error e => .error e
      | .ok rest => if b then .ok (u :: rest) else .ok rest

/-- The observable outcome of one invocation of `scrape`: the frontier state
left on disk (`visitedOut`/`pendingOut`; `save_set` writes the visited set
sorted, which leaves its membership unchanged, so the set is kept as built),
the summary counters, the merged pre-dedup pending list, the ghost trace, and
whether the run got past the empty-frontier early return (only then are the
files rewritten). -/
structure RunResult where
  visitedOut : List Str
  pendingOut : List Str
  pagesCrawled : Nat
  newLinksFound : Nat
  failedUrls : List Str
  pageDetails : List Str
  mergedPending : List Str
  trace : List Event
  ranLoop : Bool
  deriving DecidableEq

/-- One invocation of `scrape`, as a function of the loaded frontier state.
`seeds` is `some list` when `seeds.txt` exists.  Mirrors the source: seed the
pending queue (through the domain filter) only when it is empty; return early
(persisting nothing) if it is still empty; otherwise run the loop from a
fresh robots cache, merge `pending + new_pending`, deduplicate against the
visited set and itself, and persist. -/
def scrapeRun (allow : List Str) (maxPages : Nat) (net : Str → Option RobotParser)
    (fetchO : Str → Option (List Str)) (seeds : Option (List Str))
    (visited0 pending0 : List Str) : Except Unit RunResult :=
  match (if pending0.isEmpty then
           match seeds with
           | some sl => filterAllowed allow sl
           | none => .ok pending0
         else .ok pending0) with
  | .error e => .error e
  | .ok pending1 =>
    if pending1.isEmpty then
      .ok { visitedOut := visited0, pendingOut := pending0, pagesCrawled := 0,
            newLinksFound := 0, failedUrls := [], pageDetails := [],
            mergedPending := [], trace := [], ranLoop := false }
    else
      match runLoop allow maxPages net fetchO pending1
              ⟨visited0, 0, 0, [], [], [], ⟨[], []⟩⟩ with
      | .error e => .error e
      | .ok (s1, rest, tr) =>
        match dedupPending s1.visited [] [] (rest ++ s1.newPending) with
        | .error e => .error e
        | .ok uniq =>
          .ok { visitedOut := s1.visited, pendingOut := uniq,
                pagesCrawled := s1.pagesCrawled, newLinksFound := s1.newLinksFound,
                failedUrls := s1.failedUrls, pageDetails := s1.pageDetails,
                mergedPending := rest ++ s1.newPending, trace := tr, ranLoop := true }

/-- Parameters of one scheduled invocation of the crawler process. -/
structure RunParams where
  allow : List Str
  maxPages : Nat
  net : Str → Option RobotParser
  fetchO : Str → Option (List Str)
  seeds : Option (List Str)

/-- A sequence of crawler invocations, each loading the frontier files the
previous one persisted. -/
def runSeq : List RunParams → (List Str × List Str) → Except Unit (List Str × List Str)
  | [], st => .ok st
  | p :: ps, st =>
    match scrapeRun p.allow p.maxPages p.net p.fetchO p.seeds st.1 st.2 with
    | .error e => .error e
    | .ok r => runSeq ps (r.visitedOut, r.pendingOut)

/-! ### Derived notions used only in theorem statements -/

/-- Whether an `Except` is a success. -/
def isOkE {α : Type} : Except Unit α → Bool
  | .ok _ => true
  | .error _ => false

/-- The robots answer for a URL as the network oracle determines it: allow
when the robots file for the URL's netloc cannot be retrieved, otherwise ask
the parser. -/
def robotsAllow (net : Str → Option RobotParser) (ua : Str) (u : Str) : Bool :=
  match urlparse u with
  | .error _ => true
  | .ok p =>
    match net p.netloc with
    | none => true
    | some rp => rp.canFetchFn ua u

/-- A pending URL is fetchable when it parses and passes the visited, domain
and robots gates (the notion used by the page-budget claim; whether the fetch
then succeeds is separate). -/
def fetchableB (allow : List Str) (net : Str → Option RobotParser)
    (visited : List Str) (u : Str) : Bool :=
  match normalize_url u with
  | .error _ => false
  | .ok nu =>
    !visited.contains nu &&
    (match is_allowed_domain allow u with
     | .error _ => false
     | .ok b => b) &&
    robotsAllow net USER_AGENT u

/-- The fetch oracle succeeds on `u` and every link it returns can be
classified by the domain gate without raising. -/
def fetchOkB (allow : List Str) (fetchO : Str → Option (List Str)) (u : Str) : Bool :=
  match fetchO u with
  | none => false
  | some links => links.all (fun l => isOkE (is_allowed_domain allow l))

/-- A robots cache agrees with the network oracle when every cached entry is
what the oracle would return (true of the empty cache each run starts from). -/
def CacheAgrees (net : Str → Option RobotParser) (s : RobotsState) : Prop :=
  ∀ d v, s.cache.lookup d = some v → v = net d

/-- Number of fetch attempts (successful or failed) recorded in a trace. -/
def countFetchAttempts (tr : List Event) : Nat :=
  tr.countP (fun e => match e with | .fetchAttempt _ _ => true | _ => false)

/-- Trace check for the inter-request delay discipline: after a fetch attempt
(`strict = true`: any attempt; `strict = false`: only successful attempts)
a `sleep` must occur before the next dequeue.  The Bool argument is the
scanning state "a sleep is still owed". -/
def delaysOk (strict : Bool) : Bool → List Event → Bool
  | _, [] => true
  | awaiting, .dequeue _ :: rest => !awaiting && delaysOk strict false rest
  | _, .sleep :: rest => delaysOk strict false rest
  | _, .fetchAttempt _ ok :: rest => delaysOk strict (strict || ok) rest
  | awaiting, _ :: rest => delaysOk strict awaiting rest

/-- A well-formed absolute URL: printable-ASCII characters only (no spaces,
no control characters), parses without error, and has a nonempty scheme and a
nonempty authority. -/
def wellFormedAbsolute (u : Str) : Bool :=
  u.all (fun c => 32 < c.toNat && c.toNat ≤ 126) &&
  (match urlparse u with
   | .ok p => !p.scheme.isEmpty && !p.netloc.isEmpty
   | .error _ => false)

/-- The structural invariants `urlparse` guarantees for the components of a
successfully parsed URL with nonempty scheme and authority; precisely what is
needed to show that re-parsing `scheme://netloc+path` recovers the same
components. -/
def GoodParts (p : UrlParts) : Prop :=
  (∃ (c : Char) (cs : List Char), p.scheme = pyLower c :: List.map pyLower cs ∧
     c.isAlpha = true ∧ ∀ x ∈ cs, isSchemeChar x = true) ∧
  (∀ x ∈ p.netloc, isNetlocDelim x = false) ∧
  (p.netloc.contains '[' = p.netloc.contains ']') ∧
  (p.path = [] ∨ ∃ t, p.path = '/' :: t) ∧
  ('#' ∉ p.path) ∧ ('?' ∉ p.path) ∧
  (stepParams p.path = (p.path, [])) ∧
  (∀ c ∈ p.scheme ++ (p.netloc ++ p.path), 32 < c.toNat ∧ c.toNat ≤ 126)

/-! ### Generic helper lemmas: characters -/

lemma ule_iff (a b : UInt32) : a ≤ b ↔ a.toNat ≤ b.toNat := by
  rw [UInt32.le_def, BitVec.le_def]; rfl

lemma isAlpha_iff (c : Char) : c.isAlpha = true ↔
    (65 ≤ c.toNat ∧ c.toNat ≤ 90) ∨ (97 ≤ c.toNat ∧ c.toNat ≤ 122) := by
  simp only [Char.isAlpha, Char.isUpper, Char.isLower, Bool.or_eq_true, Bool.and_eq_true,
    decide_eq_true_eq, ge_iff_le, ule_iff]
  rfl

lemma isDigit_iff (c : Char) : c.isDigit = true ↔ 48 ≤ c.toNat ∧ c.toNat ≤ 57 := by
  simp only [Char.isDigit, Bool.and_eq_true, decide_eq_true_eq, ge_iff_le, ule_iff]
  rfl

lemma char_eq_iff_toNat (c d : Char) : c = d ↔ c.toNat = d.toNat := by
  constructor
  · intro h; rw [h]
  · intro h
    cases c; cases d
    simp only [Char.toNat, UInt32.toNat] at h
    congr 1
    exact congrArg UInt32.mk (BitVec.eq_of_toNat_eq h)

lemma toNat_ofNat_small (n : Nat) (h : n < 55296) : (Char.ofNat n).toNat = n := by
  simp only [Char.ofNat, Nat.isValidChar]
  rw [dif_pos (Or.inl h)]
  rfl

lemma pyLower_toNat (c : Char) :
    (pyLower c).toNat = if 65 ≤ c.toNat ∧ c.toNat ≤ 90 then c.toNat + 32 else c.toNat := by
  unfold pyLower
  split
  · next h => exact toNat_ofNat_small _ (by omega)
  · rfl

lemma pyLower_idem (c : Char) : pyLower (pyLower c) = pyLower c := by
  rw [char_eq_iff_toNat, pyLower_toNat (pyLower c)]
  have h1 := pyLower_toNat c
  by_cases h : 65 ≤ c.toNat ∧ c.toNat ≤ 90
  · rw [if_pos h] at h1
    rw [if_neg (by omega)]
  · rw [if_neg h] at h1
    rw [if_neg (by omega)]

lemma isAlpha_pyLower (c : Char) (h : c.isAlpha = true) : (pyLower c).isAlpha = true := by
  have ht := pyLower_toNat c
  rw [isAlpha_iff] at h ⊢
  rcases h with h | h
  · rw [if_pos h] at ht; omega
  · rw [if_neg (by omega)] at ht; omega

lemma isSchemeChar_pyLower (c : Char) (h : isSchemeChar c = true) :
    isSchemeChar (pyLower c) = true := by
  unfold isSchemeChar at h ⊢
  simp only [Bool.or_eq_true, decide_eq_true_eq] at h ⊢
  rcases h with (((ha | hd) | hp) | hm) | hdot
  · exact Or.inl (Or.inl (Or.inl (Or.inl (isAlpha_pyLower c ha))))
  · have ht := pyLower_toNat c
    rw [isDigit_iff] at hd
    rw [if_neg (by omega)] at ht
    refine Or.inl (Or.inl (Or.inl (Or.inr ?_)))
    rw [isDigit_iff]
    omega
  · subst hp
    exact Or.inl (Or.inl (Or.inr (by decide)))
  · subst hm
    exact Or.inl (Or.inr (by decide))
  · subst hdot
    exact Or.inr (by decide)

lemma charPrintable_pyLower (c : Char) (h : 32 < c.toNat ∧ c.toNat ≤ 126) :
    32 < (pyLower c).toNat ∧ (pyLower c).toNat ≤ 126 := by
  have ht := pyLower_toNat c
  by_cases hc : 65 ≤ c.toNat ∧ c.toNat ≤ 90
  · rw [if_pos hc] at ht; omega
  · rw [if_neg hc] at ht; omega

lemma pyLower_ne_colon (c : Char) (h : c.isAlpha = true ∨ isSchemeChar c = true) :
    pyLower c ≠ ':' := by
  have hs : isSchemeChar (pyLower c) = true := by
    rcases h with h | h
    · unfold isSchemeChar
      simp [isAlpha_pyLower c h]
    · exact isSchemeChar_pyLower c h
  intro he
  rw [he] at hs
  exact absurd hs (by decide)

/-! ### Generic helper lemmas: lists -/

lemma takeWhile_append_all {α : Type} (p : α → Bool) (l1 l2 : List α)
    (h : ∀ a ∈ l1, p a = true) :
    (l1 ++ l2).takeWhile p = l1 ++ l2.takeWhile p := by
  induction l1 with
  | nil => rfl
  | cons a t ih =>
    simp only [List.cons_append, List.takeWhile_cons, h a (by simp), if_true]
    rw [ih (fun x hx => h x (by simp [hx]))]

lemma dropWhile_append_all {α : Type} (p : α → Bool) (l1 l2 : List α)
    (h : ∀ a ∈ l1, p a = true) :
    (l1 ++ l2).dropWhile p = l2.dropWhile p := by
  induction l1 with
  | nil => rfl
  | cons a t ih =>
    simp only [List.cons_append, List.dropWhile_cons, h a (by simp), if_true]
    exact ih (fun x hx => h x (by simp [hx]))

lemma mem_takeWhile_pred {α : Type} {p : α → Bool} {l : List α} {a : α}
    (h : a ∈ l.takeWhile p) : p a = true := by
  induction l with
  | nil => simp [List.takeWhile] at h
  | cons x t ih =>
    rw [List.takeWhile_cons] at h
    by_cases hp : p x = true
    · rw [if_pos hp] at h
      rcases List.mem_cons.mp h with h | h
      · subst h; exact hp
      · exact ih h
    · rw [if_neg hp] at h; simp at h

lemma mem_takeWhile_mem {α : Type} {p : α → Bool} {l : List α} {a : α}
    (h : a ∈ l.takeWhile p) : a ∈ l := by
  have he := List.takeWhile_append_dropWhile p l
  rw [← he]
  exact List.mem_append.mpr (Or.inl h)

lemma mem_dropWhile_mem {α : Type} {p : α → Bool} {l : List α} {a : α}
    (h : a ∈ l.dropWhile p) : a ∈ l := by
  have he := List.takeWhile_append_dropWhile p l
  rw [← he]
  exact List.mem_append.mpr (Or.inr h)

lemma dropWhile_eq_cons_head {α : Type} {p : α → Bool} {l t : List α} {a : α}
    (h : l.dropWhile p = a :: t) : p a = false := by
  induction l with
  | nil => simp [List.dropWhile] at h
  | cons x xs ih =>
    rw [List.dropWhile_cons] at h
    by_cases hp : p x = true
    · rw [if_pos hp] at h; exact ih h
    · rw [if_neg hp] at h
      injection h with h1 _
      subst h1
      simpa using hp

lemma dropWhile_all_not {α : Type} {p : α → Bool} {l : List α}
    (h : ∀ a ∈ l, p a = false) : l.dropWhile p = l := by
  cases l with
  | nil => rfl
  | cons x xs => rw [List.dropWhile_cons, if_neg (by simp [h x (by simp)])]

lemma takeWhile_all {α : Type} {p : α → Bool} {l : List α}
    (h : ∀ a ∈ l, p a = true) : l.takeWhile p = l := by
  induction l with
  | nil => rfl
  | cons x xs ih =>
    rw [List.takeWhile_cons, if_pos (h x (by simp))]
    rw [ih (fun a ha => h a (by simp [ha]))]

/-! ### Claim C2 -/

/-- Claim C2, counterexample to the trailing-normalization half: the
well-formed absolute URLs `http://x.com/a` and `http://x.com/a/` differ only
by a trailing slash, yet `normalize_url` maps them to distinct canonical
keys (the source never strips or adds a trailing slash). -/
theorem C2_counterexample :
    wellFormedAbsolute "http://x.com/a".data = true ∧
    wellFormedAbsolute "http://x.com/a/".data = true ∧
    normalize_url "http://x.com/a".data = .ok "http://x.com/a".data ∧
    normalize_url "http://x.com/a/".data = .ok "http://x.com/a/".data ∧
    ¬ normalize_url "http://x.com/a".data = normalize_url "http://x.com/a/".data := by
  decide

/-- Claim C2 as amended: two URLs whose parses agree on scheme, authority and
path — in particular two URLs differing only by their fragment (or query) —
are mapped by `normalize_url` to the same canonical key.  URLs differing by
trailing normalization (e.g. a trailing slash) are not identified. -/
theorem C2_fragment_same_key (u1 u2 : Str) (p1 p2 : UrlParts)
    (h1 : urlparse u1 = .ok p1) (h2 : urlparse u2 = .ok p2)
    (hs : p1.scheme = p2.scheme) (hn : p1.netloc = p2.netloc)
    (hp : p1.path = p2.path) :
    normalize_url u1 = normalize_url u2 := by
  unfold normalize_url
  simp only [h1, h2, hs, hn, hp]

/-- Witness for C2: `http://x.com/a#sec1` and `http://x.com/a#sec2` get the
same canonical key, namely `http://x.com/a`. -/
theorem C2_fragment_same_key_witness :
    normalize_url "http://x.com/a#sec1".data = normalize_url "http://x.com/a#sec2".data ∧
    normalize_url "http://x.com/a#sec1".data = .ok "http://x.com/a".data := by
  refine ⟨?_, by decide⟩
  exact C2_fragment_same_key "http://x.com/a#sec1".data "http://x.com/a#sec2".data
    ⟨"http".data, "x.com".data, "/a".data, [], [], "sec1".data⟩
    ⟨"http".data, "x.com".data, "/a".data, [], [], "sec2".data⟩
    (by decide) (by decide) rfl rfl rfl

/-! ### Claim C9 -/

/-- Claim C9: `is_allowed_domain` returns true exactly when the allow-list is
empty (open policy) or the URL's host (its netloc component) equals some
entry or ends with `.` followed by some entry; in particular
`http://sub.github.com/x` is allowed under `{github.com}` and
`http://notgithub.com/x` is not (see the witness). -/
theorem C9_domain_gate (allow : List Str) (url : Str) (p : UrlParts) (b : Bool)
    (hp : urlparse url = .ok p) (hb : is_allowed_domain allow url = .ok b) :
    b = true ↔ allow = [] ∨ ∃ a ∈ allow, p.netloc = a ∨ ('.' :: a) <:+ p.netloc := by
  unfold is_allowed_domain at hb
  by_cases he : allow.isEmpty
  · rw [if_pos he] at hb
    injection hb with hb
    subst hb
    simp [List.isEmpty_iff.mp he]
  · rw [if_neg he] at hb
    rw [hp] at hb
    injection hb with hb
    subst hb
    rw [List.any_eq_true]
    constructor
    · rintro ⟨a, ha, hc⟩
      refine Or.inr ⟨a, ha, ?_⟩
      simpa only [Bool.or_eq_true, beq_iff_eq, List.isSuffixOf_iff_suffix] using hc
    · rintro (hnil | ⟨a, ha, hc⟩)
      · exact absurd (by simp [hnil]) he
      · refine ⟨a, ha, ?_⟩
        simpa only [Bool.or_eq_true, beq_iff_eq, List.isSuffixOf_iff_suffix] using hc

/-- Witness for C9 at the spec's two examples: the subdomain is accepted, the
lookalike host is rejected, and both agree with the suffix characterization. -/
theorem C9_domain_gate_witness :
    (is_allowed_domain ["github.com".data] "http://sub.github.com/x".data = .ok true ∧
     is_allowed_domain ["github.com".data] "http://notgithub.com/x".data = .ok false) ∧
    (true = true ↔ ["github.com".data] = [] ∨
      ∃ a ∈ ["github.com".data], "sub.github.com".data = a ∨
        ('.' :: a) <:+ "sub.github.com".data) := by
  constructor
  · exact ⟨by decide, by decide⟩
  · exact C9_domain_gate ["github.com".data] "http://sub.github.com/x".data
      ⟨"http".data, "sub.github.com".data, "/x".data, [], [], []⟩ true
      (by decide) (by decide)

/-! ### Claim C8 -/

/-- Claim C8, counterexample: (i) with the empty allow-list the domain check
returns `true` — not `false` — even for the malformed URL `notaurl`, which has
neither scheme nor host; (ii) the check is not total: on `//[` (no scheme,
unbalanced bracket) `urlparse` raises `ValueError`, which propagates; (iii) a
URL with no scheme but a matching authority, `//github.com/x`, is accepted,
not rejected. -/
theorem C8_counterexample :
    (urlparse "notaurl".data = .ok ⟨[], [], "notaurl".data, [], [], []⟩ ∧
     is_allowed_domain [] "notaurl".data = .ok true) ∧
    is_allowed_domain ["github.com".data] "//[".data = .error () ∧
    is_allowed_domain ["github.com".data] "//github.com/x".data = .ok true := by
  decide

/-- Claim C8 as amended: with a non-empty allow-list whose entries are
non-empty, every URL that parses with an empty authority (in particular any
relative or schemeless-and-hostless URL) is rejected by the domain check
without raising; moreover the check never raises on any URL that `urlparse`
accepts.  (With an empty allow-list the check returns `true` for every URL —
the open policy is checked before parsing — and a URL whose authority has
unbalanced brackets makes the check raise.) -/
theorem C8_malformed_rejected (allow : List Str) (url : Str) (p : UrlParts)
    (hne : allow ≠ []) (hae : ∀ a ∈ allow, a ≠ [])
    (hp : urlparse url = .ok p) (hn : p.netloc = []) :
    is_allowed_domain allow url = .ok false ∧
    (∀ (allow2 : List Str) (url2 : Str), isOkE (urlparse url2) = true →
      isOkE (is_allowed_domain allow2 url2) = true) := by
  constructor
  · unfold is_allowed_domain
    rw [if_neg (by simpa [List.isEmpty_iff] using hne)]
    simp only [hp]
    congr 1
    rw [List.any_eq_false]
    intro a ha
    simp only [Bool.or_eq_true, beq_iff_eq, List.isSuffixOf_iff_suffix, hn, not_or]
    constructor
    · intro hcontra
      exact hae a ha hcontra.symm
    · intro hcontra
      have := List.suffix_nil.mp hcontra
      simp at this
  · intro allow2 url2 hok
    unfold is_allowed_domain
    by_cases he : allow2.isEmpty
    · rw [if_pos he]; rfl
    · rw [if_neg he]
      cases hu : urlparse url2 with
      | error e => rw [hu] at hok; simp [isOkE] at hok
      | ok p2 => rfl

/-- Witness for C8 (amended): the schemeless, hostless URL `notaurl` is
rejected under the allow-list `{github.com}` without raising. -/
theorem C8_malformed_rejected_witness :
    is_allowed_domain ["github.com".data] "notaurl".data = .ok false ∧
    (∀ (allow2 : List Str) (url2 : Str), isOkE (urlparse url2) = true →
      isOkE (is_allowed_domain allow2 url2) = true) :=
  C8_malformed_rejected ["github.com".data] "notaurl".data
    ⟨[], [], "notaurl".data, [], [], []⟩
    (by decide) (by decide) (by decide) rfl

/-! ### Claim C6 -/

/-- Claim C6: when retrieving/parsing `robots.txt` for a host fails and that
host is not yet cached, `can_fetch` caches the permissive `None` policy for
the host, answers `true`, and logs the warning for that host exactly once;
afterwards every URL on that host is answered `true` with the state unchanged
and without consulting the network again (the answer no longer depends on the
network oracle at all). -/
theorem C6_robots_failopen (net : Str → Option RobotParser) (s : RobotsState)
    (domain : Str) (url : Str) (p : UrlParts) (ua : Str)
    (hmiss : s.cache.lookup domain = none) (hfail : net domain = none)
    (hp : urlparse url = .ok p) (hd : p.netloc = domain) :
    can_fetch net s url ua =
      .ok (true, ⟨(domain, none) :: s.cache, s.warnLog ++ [domain]⟩) ∧
    (((domain, none) :: s.cache).lookup domain = some none ∧
     (s.warnLog ++ [domain]).count domain = s.warnLog.count domain + 1) ∧
    (∀ (net2 : Str → Option RobotParser) (url2 : Str) (p2 : UrlParts) (ua2 : Str),
      urlparse url2 = .ok p2 → p2.netloc = domain →
      can_fetch net2 ⟨(domain, none) :: s.cache, s.warnLog ++ [domain]⟩ url2 ua2 =
        .ok (true, ⟨(domain, none) :: s.cache, s.warnLog ++ [domain]⟩)) := by
  refine ⟨?_, ⟨?_, ?_⟩, ?_⟩
  · unfold can_fetch get_robots_entry
    rw [hp]
    simp only [hd, hmiss, hfail]
  · rw [List.lookup_cons]
    simp
  · rw [List.count_append]
    simp [List.count_cons]
  · intro net2 url2 p2 ua2 hp2 hd2
    unfold can_fetch get_robots_entry
    rw [hp2]
    simp only [hd2, List.lookup_cons, beq_self_eq_true]

/-- Witness for C6: a concrete failing host. -/
theorem C6_robots_failopen_witness :
    can_fetch (fun _ => none) ⟨[], []⟩ "http://x.com/a".data USER_AGENT =
      .ok (true, ⟨[("x.com".data, none)], ["x.com".data]⟩) := by
  have h := C6_robots_failopen (fun _ => none) ⟨[], []⟩ "x.com".data
    "http://x.com/a".data ⟨"http".data, "x.com".data, "/a".data, [], [], []⟩
    USER_AGENT rfl rfl (by decide) rfl
  exact h.1

/-! ### Claim C5 -/

/-- Claim C5: a URL whose fetch fails (transport error, timeout or non-2xx
status) is appended to the failed-list and the loop continues with the next
dequeue from exactly the state it had, except for the robots-cache update
that already happened at the gate: the visited set, the discovery buffer, the
page counters and the remaining pending list are untouched, and the run is
not aborted. -/
theorem C5_fetch_failure_isolated (allow : List Str) (maxPages : Nat)
    (net : Str → Option RobotParser) (fetchO : Str → Option (List Str))
    (url : Str) (rest : List Str) (s : LoopState) (nu : Str) (rs : RobotsState)
    (hbudget : s.pagesCrawled < maxPages)
    (hnorm : normalize_url url = .ok nu) (hvis : nu ∉ s.visited)
    (hdom : is_allowed_domain allow url = .ok true)
    (hrob : can_fetch net s.robots url USER_AGENT = .ok (true, rs))
    (hfail : fetchO url = none) :
    runLoop allow maxPages net fetchO (url :: rest) s =
      prependTrace [.dequeue url, .fetchAttempt url false]
        (runLoop allow maxPages net fetchO rest
          { s with robots := rs, failedUrls := s.failedUrls ++ [url] }) := by
  conv_lhs => rw [runLoop]
  rw [if_neg (show ¬ maxPages ≤ s.pagesCrawled by omega)]
  simp only [hnorm]
  rw [if_neg hvis]
  simp only [hdom]
  rw [if_neg (show ¬ (true = false) by simp)]
  simp only [hrob]
  rw [if_neg (show ¬ (true = false) by simp)]
  simp only [hfail]

/-- Witness for C5: a concrete failing fetch continues the run with the URL
recorded as failed and nothing else changed. -/
theorem C5_fetch_failure_isolated_witness :
    runLoop [] 1 (fun _ => none) (fun _ => none) ["http://x.com/a".data] ⟨[], 0, 0, [], [], [], ⟨[], []⟩⟩ =
      prependTrace [.dequeue "http://x.com/a".data, .fetchAttempt "http://x.com/a".data false]
        (runLoop [] 1 (fun _ => none) (fun _ => none) []
          ⟨[], 0, 0, ["http://x.com/a".data], [], [], ⟨[("x.com".data, none)], ["x.com".data]⟩⟩) :=
  C5_fetch_failure_isolated [] 1 (fun _ => none) (fun _ => none)
    "http://x.com/a".data [] ⟨[], 0, 0, [], [], [], ⟨[], []⟩⟩
    "http://x.com/a".data ⟨[("x.com".data, none)], ["x.com".data]⟩
    (by decide) (by decide) (by decide) (by decide) rfl rfl

/-! ### Claim C3 -/

lemma mem_insertStr {v : List Str} {u : Str} (x : Str) (h : u ∈ v) : u ∈ insertStr v x := by
  unfold insertStr
  split
  · exact h
  · exact List.mem_append.mpr (Or.inl h)

lemma prependTrace_ok {evs : List Event} {x : Except Unit (LoopState × List Str × List Event)}
    {out : LoopState × List Str × List Event} (h : prependTrace evs x = .ok out) :
    ∃ o, x = .ok o ∧ out = (o.1, o.2.1, evs ++ o.2.2) := by
  cases x with
  | error e => exact absurd h (by simp [prependTrace])
  | ok o =>
    obtain ⟨s1, r1, tr1⟩ := o
    unfold prependTrace at h
    injection h with h
    exact ⟨(s1, r1, tr1), rfl, h.symm⟩

lemma runLoop_visited_mono (allow : List Str) (maxPages : Nat)
    (net : Str → Option RobotParser) (fetchO : Str → Option (List Str)) :
    ∀ (pending : List Str) (s : LoopState) (out : LoopState × List Str × List Event),
    runLoop allow maxPages net fetchO pending s = .ok out →
    ∀ u ∈ s.visited, u ∈ out.1.visited := by
  intro pending
  induction pending with
  | nil =>
    intro s out h u hu
    rw [runLoop] at h
    injection h with h
    rw [← h]
    exact hu
  | cons url rest ih =>
    intro s out h u hu
    rw [runLoop] at h
    split at h
    · injection h with h
      rw [← h]
      exact hu
    · split at h
      · exact absurd h (by simp)
      · split at h
        · obtain ⟨o, ho, hout⟩ := prependTrace_ok h
          rw [hout]
          exact ih s o ho u hu
        · split at h
          · exact absurd h (by simp)
          · split at h
            · obtain ⟨o, ho, hout⟩ := prependTrace_ok h
              rw [hout]
              exact ih s o ho u hu
            · split at h
              · exact absurd h (by simp)
              · split at h
                · obtain ⟨o, ho, hout⟩ := prependTrace_ok h
                  rw [hout]
                  exact ih _ o ho u (mem_insertStr _ hu)
                · split at h
                  · obtain ⟨o, ho, hout⟩ := prependTrace_ok h
                    rw [hout]
                    exact ih _ o ho u hu
                  · split at h
                    · exact absurd h (by simp)
                    · obtain ⟨o, ho, hout⟩ := prependTrace_ok h
                      rw [hout]
                      exact ih _ o ho u (mem_insertStr _ hu)

/-- Inversion principle for a successful `scrapeRun`: either the early
empty-frontier return fired (nothing persisted), or the loop ran and the
result fields are the loop outputs with the deduplicated merge. -/
lemma scrapeRun_ok_inv (allow : List Str) (maxPages : Nat)
    (net : Str → Option RobotParser) (fetchO : Str → Option (List Str))
    (seeds : Option (List Str)) (visited0 pending0 : List Str) (r : RunResult)
    (h : scrapeRun allow maxPages net fetchO seeds visited0 pending0 = .ok r) :
    (r = { visitedOut := visited0, pendingOut := pending0, pagesCrawled := 0,
           newLinksFound := 0, failedUrls := [], pageDetails := [],
           mergedPending := [], trace := [], ranLoop := false }) ∨
    (∃ pending1 s1 rest tr uniq,
       runLoop allow maxPages net fetchO pending1
           ⟨visited0, 0, 0, [], [], [], ⟨[], []⟩⟩ = .ok (s1, rest, tr) ∧
       dedupPending s1.visited [] [] (rest ++ s1.newPending) = .ok uniq ∧
       r = { visitedOut := s1.visited, pendingOut := uniq,
             pagesCrawled := s1.pagesCrawled, newLinksFound := s1.newLinksFound,
             failedUrls := s1.failedUrls, pageDetails := s1.pageDetails,
             mergedPending := rest ++ s1.newPending, trace := tr, ranLoop := true }) := by
  unfold scrapeRun at h
  cases hseed : (if pending0.isEmpty = true then
           match seeds with
           | some sl => filterAllowed allow sl
           | none => Except.ok pending0
         else Except.ok pending0) with
  | error e =>
    rw [hseed] at h
    exact absurd h (by simp)
  | ok pending1 =>
    simp only [hseed] at h
    by_cases hemp : pending1.isEmpty = true
    · rw [if_pos hemp] at h
      injection h with h
      exact Or.inl h.symm
    · rw [if_neg hemp] at h
      cases hloop : runLoop allow maxPages net fetchO pending1
          ⟨visited0, 0, 0, [], [], [], ⟨[], []⟩⟩ with
      | error e =>
        rw [hloop] at h
        exact absurd h (by simp)
      | ok o =>
        obtain ⟨s1, rest, tr⟩ := o
        simp only [hloop] at h
        cases hded : dedupPending s1.visited [] [] (rest ++ s1.newPending) with
        | error e =>
          rw [hded] at h
          exact absurd h (by simp)
        | ok uniq =>
          simp only [hded] at h
          injection h with h
          exact Or.inr ⟨pending1, s1, rest, tr, uniq, hloop, hded, h.symm⟩

/-- Claim C3: the visited set only grows.  Within a run, the loop never
removes an entry (whatever state it starts from, every entry of the starting
visited set is in the final one); one whole invocation of `scrape` persists a
visited set containing everything it loaded; and across any sequence of runs
the persisted visited set is a superset of the initial one. -/
theorem C3_visited_monotone :
    (∀ (allow : List Str) (maxPages : Nat) (net : Str → Option RobotParser)
       (fetchO : Str → Option (List Str)) (pending : List Str) (s : LoopState)
       (out : LoopState × List Str × List Event),
       runLoop allow maxPages net fetchO pending s = .ok out →
       ∀ u ∈ s.visited, u ∈ out.1.visited) ∧
    (∀ (allow : List Str) (maxPages : Nat) (net : Str → Option RobotParser)
       (fetchO : Str → Option (List Str)) (seeds : Option (List Str))
       (visited0 pending0 : List Str) (r : RunResult),
       scrapeRun allow maxPages net fetchO seeds visited0 pending0 = .ok r →
       ∀ u ∈ visited0, u ∈ r.visitedOut) ∧
    (∀ (runs : List RunParams) (st out : List Str × List Str),
       runSeq runs st = .ok out → ∀ u ∈ st.1, u ∈ out.1) := by
  have hrun : ∀ (allow : List Str) (maxPages : Nat) (net : Str → Option RobotParser)
      (fetchO : Str → Option (List Str)) (seeds : Option (List Str))
      (visited0 pending0 : List Str) (r : RunResult),
      scrapeRun allow maxPages net fetchO seeds visited0 pending0 = .ok r →
      ∀ u ∈ visited0, u ∈ r.visitedOut := by
    intro allow maxPages net fetchO seeds visited0 pending0 r h u hu
    rcases scrapeRun_ok_inv allow maxPages net fetchO seeds visited0 pending0 r h with
      hearly | ⟨pending1, s1, rest, tr, uniq, hloop, _, hrec⟩
    · rw [hearly]
      exact hu
    · rw [hrec]
      exact runLoop_visited_mono allow maxPages net fetchO _ _ _ hloop u hu
  refine ⟨fun allow maxPages net fetchO => runLoop_visited_mono allow maxPages net fetchO,
          hrun, ?_⟩
  intro runs
  induction runs with
  | nil =>
    intro st out h u hu
    unfold runSeq at h
    injection h with h
    rw [← h]
    exact hu
  | cons p ps ih =>
    intro st out h u hu
    rw [runSeq] at h
    split at h
    · exact absurd h (by simp)
    · next r heq =>
      exact ih _ out h u (hrun p.allow p.maxPages p.net p.fetchO p.seeds st.1 st.2 r heq u hu)

/-- Witness for C3: a two-run-relevant concrete instance; the entry loaded at
the start is still in the persisted visited set after the run sequence. -/
theorem C3_visited_monotone_witness :
    "http://old.com/x".data ∈ ["http://old.com/x".data, "http://a.com/".data] := by
  have h := C3_visited_monotone.2.2
    [⟨[], 5, fun _ => none, fun u => if u == "http://a.com/".data then some [] else none, none⟩]
    (["http://old.com/x".data], ["http://a.com/".data])
    (["http://old.com/x".data, "http://a.com/".data], [])
    (by decide)
  exact h "http://old.com/x".data (by decide)

/-! ### Claim C4 -/

lemma dedupPending_spec (visited : List Str) :
    ∀ (rem seen acc out : List Str),
    dedupPending visited seen acc rem = .ok out →
    ∃ del, out = acc ++ del ∧ del.Sublist rem ∧
      (∀ u ∈ del, ∃ nu, normalize_url u = .ok nu ∧ nu ∉ visited ∧ nu ∉ seen) ∧
      del.Pairwise (fun a b => normalize_url a ≠ normalize_url b) := by
  intro rem
  induction rem with
  | nil =>
    intro seen acc out h
    unfold dedupPending at h
    injection h with h
    exact ⟨[], by simp [← h], List.nil_sublist _, by simp, List.Pairwise.nil⟩
  | cons u us ih =>
    intro seen acc out h
    rw [dedupPending] at h
    cases hn : normalize_url u with
    | error e =>
      rw [hn] at h
      exact absurd h (by simp)
    | ok nu =>
      simp only [hn] at h
      by_cases hc : nu ∉ seen ∧ nu ∉ visited
      · rw [if_pos hc] at h
        obtain ⟨del, hout, hsub, hprop, hpw⟩ := ih (seen ++ [nu]) (acc ++ [u]) out h
        refine ⟨u :: del, by simp [hout], List.Sublist.cons₂ u hsub, ?_, ?_⟩
        · intro v hv
          rcases List.mem_cons.mp hv with hv | hv
          · subst hv
            exact ⟨nu, hn, hc.2, hc.1⟩
          · obtain ⟨nv, hnv, hnvv, hnvs⟩ := hprop v hv
            exact ⟨nv, hnv, hnvv, fun hx => hnvs (List.mem_append.mpr (Or.inl hx))⟩
        · rw [List.pairwise_cons]
          refine ⟨?_, hpw⟩
          intro v hv
          obtain ⟨nv, hnv, _, hnvs⟩ := hprop v hv
          rw [hn, hnv]
          intro hcontra
          injection hcontra with hcontra
          exact hnvs (List.mem_append.mpr (Or.inr (by simp [hcontra])))
      · rw [if_neg hc] at h
        obtain ⟨del, hout, hsub, hprop, hpw⟩ := ih seen acc out h
        exact ⟨del, hout, hsub.cons u, hprop, hpw⟩

/-- Claim C4: the persisted pending queue is a subsequence of the merged
sequence (remaining original pending items followed by the discovery buffer),
so first-seen order is preserved; each surviving entry has a canonical form
that is not in the persisted visited set; and no two surviving entries share
a canonical form. -/
theorem C4_pending_frontier_clean (allow : List Str) (maxPages : Nat)
    (net : Str → Option RobotParser) (fetchO : Str → Option (List Str))
    (seeds : Option (List Str)) (visited0 pending0 : List Str) (r : RunResult)
    (h : scrapeRun allow maxPages net fetchO seeds visited0 pending0 = .ok r)
    (hr : r.ranLoop = true) :
    r.pendingOut.Sublist r.mergedPending ∧
    (∀ u ∈ r.pendingOut, ∃ nu, normalize_url u = .ok nu ∧ nu ∉ r.visitedOut) ∧
    r.pendingOut.Pairwise (fun a b => normalize_url a ≠ normalize_url b) := by
  rcases scrapeRun_ok_inv allow maxPages net fetchO seeds visited0 pending0 r h with
    hearly | ⟨pending1, s1, rest, tr, uniq, _, hded, hrec⟩
  · rw [hearly] at hr
    exact absurd hr (by simp)
  · obtain ⟨del, hout, hsub, hprop, hpw⟩ := dedupPending_spec s1.visited _ _ _ _ hded
    rw [List.nil_append] at hout
    subst hout
    rw [hrec]
    refine ⟨hsub, ?_, hpw⟩
    intro u hu
    obtain ⟨nu, hnu, hnv, _⟩ := hprop u hu
    exact ⟨nu, hnu, hnv⟩

/-- Witness for C4 at a concrete run: one page fetched, one link discovered;
the persisted queue is exactly that link, not in visited and duplicate-free. -/
theorem C4_pending_frontier_clean_witness :
    ["http://a.com/b".data].Sublist ["http://a.com/b".data] ∧
    (∀ u ∈ ["http://a.com/b".data], ∃ nu, normalize_url u = .ok nu ∧
       nu ∉ ["http://a.com/".data]) ∧
    (["http://a.com/b".data]).Pairwise (fun a b => normalize_url a ≠ normalize_url b) := by
  have h := C4_pending_frontier_clean [] 5 (fun _ => none)
    (fun u => if u == "http://a.com/".data then some ["http://a.com/b".data] else none)
    none [] ["http://a.com/".data]
    { visitedOut := ["http://a.com/".data], pendingOut := ["http://a.com/b".data],
      pagesCrawled := 1, newLinksFound := 1, failedUrls := [], pageDetails := ["http://a.com/".data],
      mergedPending := ["http://a.com/b".data],
      trace := [.dequeue "http://a.com/".data, .fetchAttempt "http://a.com/".data true, .sleep],
      ranLoop := true }
    (by decide) rfl
  exact h

/-! ### Claim C7 -/

/-- Claim C7, counterexample: with budget 1 and two gate-passing URLs of which
the first fails to fetch, the trace goes directly from the failed fetch
attempt to the next dequeue with no sleep in between — `time.sleep` sits
inside the `try` block after the successful-fetch bookkeeping, so a failed
fetch skips the delay. -/
theorem C7_counterexample :
    (runLoop [] 1 (fun _ => none)
        (fun u => if u == "http://x.com/a".data then none else some [])
        ["http://x.com/a".data, "http://x.com/b".data]
        ⟨[], 0, 0, [], [], [], ⟨[], []⟩⟩).toOption.map (fun x => x.2.2) =
      some [.dequeue "http://x.com/a".data, .fetchAttempt "http://x.com/a".data false,
            .dequeue "http://x.com/b".data, .fetchAttempt "http://x.com/b".data true,
            .sleep] ∧
    (runLoop [] 1 (fun _ => none)
        (fun u => if u == "http://x.com/a".data then none else some [])
        ["http://x.com/a".data, "http://x.com/b".data]
        ⟨[], 0, 0, [], [], [], ⟨[], []⟩⟩).toOption.map
      (fun x => delaysOk true false x.2.2) = some false := by
  decide

/-- Claim C7 as amended: after every successful fetch the fixed inter-request
delay is imposed before the next dequeue; a failed fetch proceeds to the next
dequeue without the delay. -/
theorem C7_delay_after_success (allow : List Str) (maxPages : Nat)
    (net : Str → Option RobotParser) (fetchO : Str → Option (List Str)) :
    ∀ (pending : List Str) (s : LoopState) (out : LoopState × List Str × List Event),
    runLoop allow maxPages net fetchO pending s = .ok out →
    delaysOk false false out.2.2 = true := by
  intro pending
  induction pending with
  | nil =>
    intro s out h
    rw [runLoop] at h
    injection h with h
    rw [← h]
    rfl
  | cons url rest ih =>
    intro s out h
    rw [runLoop] at h
    split at h
    · injection h with h
      rw [← h]
      rfl
    · split at h
      · exact absurd h (by simp)
      · split at h
        · obtain ⟨o, ho, hout⟩ := prependTrace_ok h
          rw [hout]
          simpa [delaysOk] using ih _ o ho
        · split at h
          · exact absurd h (by simp)
          · split at h
            · obtain ⟨o, ho, hout⟩ := prependTrace_ok h
              rw [hout]
              simpa [delaysOk] using ih _ o ho
            · split at h
              · exact absurd h (by simp)
              · split at h
                · obtain ⟨o, ho, hout⟩ := prependTrace_ok h
                  rw [hout]
                  simpa [delaysOk] using ih _ o ho
                · split at h
                  · obtain ⟨o, ho, hout⟩ := prependTrace_ok h
                    rw [hout]
                    simpa [delaysOk] using ih _ o ho
                  · split at h
                    · exact absurd h (by simp)
                    · obtain ⟨o, ho, hout⟩ := prependTrace_ok h
                      rw [hout]
                      simpa [delaysOk] using ih _ o ho

/-- Witness for C7 (amended) at a concrete run with one failed and one
successful fetch: its trace passes the success-delay check. -/
theorem C7_delay_after_success_witness :
    delaysOk false false
      [.dequeue "http://x.com/a".data, .fetchAttempt "http://x.com/a".data false,
       .dequeue "http://x.com/b".data, .fetchAttempt "http://x.com/b".data true,
       .sleep] = true :=
  C7_delay_after_success [] 1 (fun _ => none)
    (fun u => if u == "http://x.com/a".data then none else some [])
    ["http://x.com/a".data, "http://x.com/b".data]
    ⟨[], 0, 0, [], [], [], ⟨[], []⟩⟩
    (⟨["http://x.com/b".data], 1, 0, ["http://x.com/a".data], [],
      ["http://x.com/b".data], ⟨[("x.com".data, none)], ["x.com".data]⟩⟩, [],
     [.dequeue "http://x.com/a".data, .fetchAttempt "http://x.com/a".data false,
      .dequeue "http://x.com/b".data, .fetchAttempt "http://x.com/b".data true, .sleep])
    rfl

/-! ### Claim C1 -/

lemma normalize_url_ok_elim {u nu : Str} (h : normalize_url u = .ok nu) :
    ∃ p, urlparse u = .ok p ∧ nu = p.scheme ++ ':' :: '/' :: '/' :: (p.netloc ++ p.path) := by
  unfold normalize_url at h
  cases hp : urlparse u with
  | error e => rw [hp] at h; exact absurd h (by simp)
  | ok p =>
    rw [hp] at h
    injection h with h
    exact ⟨p, rfl, h.symm⟩

lemma fetchableB_elim {allow : List Str} {net : Str → Option RobotParser}
    {visited : List Str} {u : Str} (h : fetchableB allow net visited u = true) :
    ∃ nu, normalize_url u = .ok nu ∧ nu ∉ visited ∧
      is_allowed_domain allow u = .ok true ∧ robotsAllow net USER_AGENT u = true := by
  unfold fetchableB at h
  cases hn : normalize_url u with
  | error e => rw [hn] at h; simp at h
  | ok nu =>
    rw [hn] at h
    simp only [Bool.and_eq_true] at h
    obtain ⟨⟨hv, hd⟩, hr⟩ := h
    refine ⟨nu, rfl, by simpa using hv, ?_, hr⟩
    cases hd2 : is_allowed_domain allow u with
    | error e => rw [hd2] at hd; simp at hd
    | ok b =>
      rw [hd2] at hd
      simp only [] at hd
      rw [hd]

lemma fetchOkB_elim {allow : List Str} {fetchO : Str → Option (List Str)} {u : Str}
    (h : fetchOkB allow fetchO u = true) :
    ∃ links, fetchO u = some links ∧
      ∀ l ∈ links, isOkE (is_allowed_domain allow l) = true := by
  unfold fetchOkB at h
  cases hf : fetchO u with
  | none => rw [hf] at h; simp at h
  | some links =>
    rw [hf] at h
    exact ⟨links, rfl, List.all_eq_true.mp h⟩

lemma fetchableB_intro (allow : List Str) (net : Str → Option RobotParser)
    (visited : List Str) (u nu : Str)
    (hn : normalize_url u = .ok nu) (hv : nu ∉ visited)
    (hd : is_allowed_domain allow u = .ok true)
    (hr : robotsAllow net USER_AGENT u = true) :
    fetchableB allow net visited u = true := by
  unfold fetchableB
  simp only [hn, hd, hr]
  simp [hv]

lemma fetchableB_insertStr (allow : List Str) (net : Str → Option RobotParser)
    (visited : List Str) (x v : Str)
    (hf : fetchableB allow net visited v = true)
    (hne : ∀ nv, normalize_url v = .ok nv → nv ≠ x) :
    fetchableB allow net (insertStr visited x) v = true := by
  obtain ⟨nv, hn, hv, hd, hr⟩ := fetchableB_elim hf
  refine fetchableB_intro allow net _ v nv hn ?_ hd hr
  intro hc
  unfold insertStr at hc
  split at hc
  · exact hv hc
  · rcases List.mem_append.mp hc with hm | hm
    · exact hv hm
    · exact hne nv hn (by simpa using hm)

lemma get_robots_entry_spec (net : Str → Option RobotParser) (s : RobotsState)
    (domain : Str) (hca : CacheAgrees net s) :
    (get_robots_entry net s domain).1 = net domain ∧
    CacheAgrees net (get_robots_entry net s domain).2 := by
  unfold get_robots_entry
  cases hl : s.cache.lookup domain with
  | some v =>
    exact ⟨hca _ _ hl, hca⟩
  | none =>
    cases hnet : net domain with
    | some p =>
      refine ⟨rfl, ?_⟩
      intro d v hv
      rw [List.lookup_cons] at hv
      by_cases hd : (d == domain) = true
      · simp only [hd] at hv
        injection hv with hv
        rw [← hv, beq_iff_eq.mp hd, hnet]
      · simp only [Bool.not_eq_true] at hd
        simp only [hd] at hv
        exact hca _ _ hv
    | none =>
      refine ⟨rfl, ?_⟩
      intro d v hv
      rw [List.lookup_cons] at hv
      by_cases hd : (d == domain) = true
      · simp only [hd] at hv
        injection hv with hv
        rw [← hv, beq_iff_eq.mp hd, hnet]
      · simp only [Bool.not_eq_true] at hd
        simp only [hd] at hv
        exact hca _ _ hv

lemma can_fetch_agrees (net : Str → Option RobotParser) (s : RobotsState)
    (url : Str) (p : UrlParts) (ua : Str)
    (hp : urlparse url = .ok p) (hca : CacheAgrees net s) :
    can_fetch net s url ua = .ok (robotsAllow net ua url, (get_robots_entry net s p.netloc).2) ∧
    CacheAgrees net (get_robots_entry net s p.netloc).2 := by
  obtain ⟨h1, h2⟩ := get_robots_entry_spec net s p.netloc hca
  refine ⟨?_, h2⟩
  unfold can_fetch
  simp only [hp]
  rw [h1]
  unfold robotsAllow
  simp only [hp]
  cases net p.netloc <;> rfl

lemma discover_ok (allow visited : List Str) :
    ∀ (links np : List Str) (cnt : Nat),
    (∀ l ∈ links, isOkE (is_allowed_domain allow l) = true) →
    ∃ res, discover allow visited np cnt links = .ok res := by
  intro links
  induction links with
  | nil => intro np cnt _; exact ⟨(np, cnt), rfl⟩
  | cons l ls ih =>
    intro np cnt h
    rw [discover]
    by_cases hm : l ∈ visited ∨ l ∈ np
    · rw [if_pos hm]
      exact ih np cnt (fun x hx => h x (by simp [hx]))
    · rw [if_neg hm]
      cases hd : is_allowed_domain allow l with
      | error e =>
        have hc := h l (by simp)
        rw [hd] at hc
        simp [isOkE] at hc
      | ok b =>
        have hrest : ∀ x ∈ ls, isOkE (is_allowed_domain allow x) = true :=
          fun x hx => h x (by simp [hx])
        cases b
        · simpa using ih np cnt hrest
        · simpa using ih (np ++ [l]) (cnt + 1) hrest

lemma runLoop_budget_exact (allow : List Str) (maxPages : Nat)
    (net : Str → Option RobotParser) (fetchO : Str → Option (List Str)) :
    ∀ (pending : List Str) (s : LoopState),
    (∀ u ∈ pending, fetchableB allow net s.visited u = true) →
    (∀ u ∈ pending, fetchOkB allow fetchO u = true) →
    (pending.map (fun u => (normalize_url u).toOption)).Nodup →
    CacheAgrees net s.robots →
    s.pagesCrawled ≤ maxPages →
    maxPages ≤ s.pagesCrawled + pending.length →
    ∃ s1 rest tr, runLoop allow maxPages net fetchO pending s = .ok (s1, rest, tr) ∧
      s1.pagesCrawled = maxPages ∧
      countFetchAttempts tr = maxPages - s.pagesCrawled := by
  intro pending
  induction pending with
  | nil =>
    intro s _ _ _ _ hle hge
    rw [List.length_nil] at hge
    refine ⟨s, [], [], by rw [runLoop], by omega, ?_⟩
    simp only [countFetchAttempts, List.countP_nil]
    omega
  | cons url rest ih =>
    intro s hf hok hnd hca hle hge
    by_cases hstop : maxPages ≤ s.pagesCrawled
    · refine ⟨s, url :: rest, [], ?_, by omega, ?_⟩
      · rw [runLoop, if_pos hstop]
      · simp only [countFetchAttempts, List.countP_nil]
        omega
    · obtain ⟨nu, hn, hv, hd, hr⟩ := fetchableB_elim (hf url (by simp))
      obtain ⟨p, hp, _⟩ := normalize_url_ok_elim hn
      obtain ⟨links, hlinks, hlall⟩ := fetchOkB_elim (hok url (by simp))
      obtain ⟨hcf, hca2⟩ := can_fetch_agrees net s.robots url p USER_AGENT hp hca
      rw [hr] at hcf
      obtain ⟨np2, hdisc⟩ := discover_ok allow s.visited links s.newPending s.newLinksFound hlall
      have hnu_head : (normalize_url url).toOption = some nu := by rw [hn]; rfl
      rw [List.map_cons] at hnd
      have hnd' := List.nodup_cons.mp hnd
      have hnotin : some nu ∉ rest.map (fun u => (normalize_url u).toOption) := by
        rw [← hnu_head]
        exact hnd'.1
      set s2 : LoopState :=
        { visited := insertStr s.visited nu
          pagesCrawled := s.pagesCrawled + 1
          newLinksFound := np2.2
          failedUrls := s.failedUrls
          newPending := np2.1
          pageDetails := s.pageDetails ++ [url]
          robots := (get_robots_entry net s.robots p.netloc).2 } with hs2
      have hf' : ∀ u ∈ rest, fetchableB allow net s2.visited u = true := by
        intro v hv2
        refine fetchableB_insertStr allow net s.visited nu v (hf v (by simp [hv2])) ?_
        intro nv hnv hcontra
        apply hnotin
        subst hcontra
        have : (normalize_url v).toOption = some nv := by rw [hnv]; rfl
        rw [← this]
        exact List.mem_map_of_mem _ hv2
      have hok' : ∀ u ∈ rest, fetchOkB allow fetchO u = true :=
        fun v hv2 => hok v (by simp [hv2])
      have hge' : maxPages ≤ s2.pagesCrawled + rest.length := by
        rw [List.length_cons] at hge
        simp only [hs2]
        omega
      obtain ⟨s1, rest1, tr1, heq, hpages, hcount⟩ :=
        ih s2 hf' hok' hnd'.2 hca2 (by simp only [hs2]; omega) hge'
      refine ⟨s1, rest1, .dequeue url :: .fetchAttempt url true :: .sleep :: tr1, ?_, hpages, ?_⟩
      · rw [runLoop, if_neg hstop]
        simp only [hn]
        rw [if_neg (by simpa using hv)]
        simp only [hd]
        rw [if_neg (show ¬ (true = false) by simp)]
        simp only [hcf]
        rw [if_neg (show ¬ (true = false) by simp)]
        simp only [hlinks, hdisc]
        rw [heq]
        rfl
      · have hs2p : s2.pagesCrawled = s.pagesCrawled + 1 := by rw [hs2]
        rw [hs2p] at hcount
        simp only [countFetchAttempts, List.countP_cons] at hcount ⊢
        norm_num
        omega

/-- Claim C1, counterexample: with page budget `N = 1` and a pending list of
two fetchable URLs (both pass the visited, domain and robots gates), the run
performs 2 fetch attempts, not exactly `N = 1`: a failed fetch does not count
against the budget, because `pages_crawled` is incremented only on success. -/
theorem C1_counterexample :
    (∀ u ∈ ["http://x.com/a".data, "http://x.com/b".data],
       fetchableB [] (fun _ => none) [] u = true) ∧
    (runLoop [] 1 (fun _ => none)
        (fun u => if u == "http://x.com/a".data then none else some [])
        ["http://x.com/a".data, "http://x.com/b".data]
        ⟨[], 0, 0, [], [], [], ⟨[], []⟩⟩).toOption.map
      (fun x => countFetchAttempts x.2.2) = some 2 := by
  decide

/-- Claim C1 as amended: if the pending list holds at least `N` fetchable
URLs with pairwise-distinct canonical forms and every attempted fetch
succeeds, the loop terminates with exactly `N` pages crawled and exactly `N`
fetch attempts (all successful).  When fetches can fail, only successful
fetches count against the budget, so more than `N` attempts may occur. -/
theorem C1_page_budget (allow : List Str) (maxPages : Nat)
    (net : Str → Option RobotParser) (fetchO : Str → Option (List Str))
    (pending : List Str) (visited0 : List Str)
    (hf : ∀ u ∈ pending, fetchableB allow net visited0 u = true)
    (hok : ∀ u ∈ pending, fetchOkB allow fetchO u = true)
    (hnd : (pending.map (fun u => (normalize_url u).toOption)).Nodup)
    (hlen : maxPages ≤ pending.length) :
    ∃ s1 rest tr,
      runLoop allow maxPages net fetchO pending
        ⟨visited0, 0, 0, [], [], [], ⟨[], []⟩⟩ = .ok (s1, rest, tr) ∧
      s1.pagesCrawled = maxPages ∧ countFetchAttempts tr = maxPages := by
  have hca : CacheAgrees net ⟨[], []⟩ := by
    intro d v hv
    simp [List.lookup] at hv
  obtain ⟨s1, rest, tr, heq, hpages, hcount⟩ :=
    runLoop_budget_exact allow maxPages net fetchO pending
      ⟨visited0, 0, 0, [], [], [], ⟨[], []⟩⟩ hf hok hnd hca (Nat.zero_le maxPages)
      (show maxPages ≤ 0 + pending.length by omega)
  exact ⟨s1, rest, tr, heq, hpages, hcount⟩

/-- Witness for C1 (amended): budget 1, one fetchable URL whose fetch
succeeds — exactly one fetch attempt. -/
theorem C1_page_budget_witness :
    ∃ s1 rest tr,
      runLoop [] 1 (fun _ => none) (fun _ => some []) ["http://x.com/a".data]
        ⟨[], 0, 0, [], [], [], ⟨[], []⟩⟩ = .ok (s1, rest, tr) ∧
      s1.pagesCrawled = 1 ∧ countFetchAttempts tr = 1 :=
  C1_page_budget [] 1 (fun _ => none) (fun _ => some []) ["http://x.com/a".data] []
    (by decide) (by decide) (by decide) (by decide)

/-! ### Claim C10: helper lemmas about the parsing pipeline -/

lemma isC0_false (c : Char) (h : 32 < c.toNat) : isC0OrSpace c = false := by
  unfold isC0OrSpace
  simp only [decide_eq_false_iff_not]
  omega

lemma isUnsafe_false (c : Char) (h : 32 < c.toNat) : isUnsafeUrlByte c = false := by
  unfold isUnsafeUrlByte
  have h1 : ¬ c = '\t' := fun he => by subst he; exact absurd h (by decide)
  have h2 : ¬ c = '\r' := fun he => by subst he; exact absurd h (by decide)
  have h3 : ¬ c = '\n' := fun he => by subst he; exact absurd h (by decide)
  simp [h1, h2, h3]

lemma cleanUrl_id (l : Str) (h : ∀ c ∈ l, 32 < c.toNat ∧ c.toNat ≤ 126) :
    cleanUrl l = l := by
  unfold cleanUrl wsStrip
  rw [dropWhile_all_not (fun c hc => isC0_false c (h c hc).1)]
  rw [dropWhile_all_not (fun c hc => isC0_false c (h c (List.mem_reverse.mp hc)).1)]
  rw [List.reverse_reverse]
  rw [List.filter_eq_self.mpr (fun c hc => by simp [isUnsafe_false c (h c hc).1])]

lemma not_mem_takeWhile_ne (d : Char) (l : Str) : d ∉ l.takeWhile (fun x => x ≠ d) := by
  intro h
  have := mem_takeWhile_pred h
  simp at this

lemma takeWhile_ne_cons_self (d : Char) (t : Str) :
    (d :: t).takeWhile (fun x => x ≠ d) = [] := by
  rw [List.takeWhile_cons]
  simp

lemma takeWhile_ne_cons_of_ne (d a : Char) (t : Str) (h : a ≠ d) :
    (a :: t).takeWhile (fun x => x ≠ d) = a :: t.takeWhile (fun x => x ≠ d) := by
  rw [List.takeWhile_cons]
  simp [h]

lemma map_pyLower_idem (cs : List Char) :
    List.map (pyLower ∘ pyLower) cs = List.map pyLower cs := by
  induction cs with
  | nil => rfl
  | cons a as iha => simp only [List.map_cons, Function.comp_apply, pyLower_idem, iha]

lemma splitScheme_good (l : Str) (h : (splitScheme l).1 ≠ []) :
    ∃ (c : Char) (cs : List Char),
      (splitScheme l).1 = pyLower c :: List.map pyLower cs ∧ c.isAlpha = true ∧
      (∀ x ∈ cs, isSchemeChar x = true) ∧ c ∈ l ∧ ∀ x ∈ cs, x ∈ l := by
  unfold splitScheme at h ⊢
  by_cases h1 : l.dropWhile (· ≠ ':') = [] ∨ l.takeWhile (· ≠ ':') = []
  · rw [if_pos h1] at h
    exact absurd rfl h
  · rw [if_neg h1] at h ⊢
    by_cases h2 : (((l.takeWhile (· ≠ ':')).headD ' ').isAlpha &&
        (l.takeWhile (· ≠ ':')).tail.all isSchemeChar) = true
    · rw [if_pos h2] at h ⊢
      have hpre : l.takeWhile (· ≠ ':') ≠ [] := fun hc => h1 (Or.inr hc)
      obtain ⟨c, cs, hcs⟩ := List.exists_cons_of_ne_nil hpre
      rw [hcs] at h2 ⊢
      simp only [List.headD_cons, List.tail_cons, Bool.and_eq_true] at h2
      have hmem : ∀ x ∈ c :: cs, x ∈ l := by
        intro x hx
        exact mem_takeWhile_mem (hcs ▸ hx)
      exact ⟨c, cs, by simp, h2.1, List.all_eq_true.mp h2.2,
        hmem c (by simp), fun x hx => hmem x (by simp [hx])⟩
    · rw [if_neg h2] at h
      exact absurd rfl h

lemma splitScheme_snd_subset (l : Str) : ∀ x ∈ (splitScheme l).2, x ∈ l := by
  unfold splitScheme
  by_cases h1 : l.dropWhile (· ≠ ':') = [] ∨ l.takeWhile (· ≠ ':') = []
  · rw [if_pos h1]
    intro x hx
    exact hx
  · rw [if_neg h1]
    by_cases h2 : (((l.takeWhile (· ≠ ':')).headD ' ').isAlpha &&
        (l.takeWhile (· ≠ ':')).tail.all isSchemeChar) = true
    · rw [if_pos h2]
      intro x hx
      have hpost : l.dropWhile (· ≠ ':') ≠ [] := fun hc => h1 (Or.inl hc)
      obtain ⟨a, t, hat⟩ := List.exists_cons_of_ne_nil hpost
      rw [hat] at hx
      simp only [List.tail_cons] at hx
      exact mem_dropWhile_mem (hat ▸ List.mem_cons_of_mem a hx)
    · rw [if_neg h2]
      intro x hx
      exact hx

lemma splitScheme_reparse (s t : Str)
    (hgood : ∃ (c : Char) (cs : List Char), s = pyLower c :: List.map pyLower cs ∧
       c.isAlpha = true ∧ ∀ x ∈ cs, isSchemeChar x = true) :
    splitScheme (s ++ ':' :: t) = (s, t) := by
  obtain ⟨c, cs, hseq, hca, hcs⟩ := hgood
  have hcolon : ∀ x ∈ s, (fun x => decide (x ≠ ':')) x = true := by
    intro x hx
    rw [hseq] at hx
    simp only [decide_eq_true_eq]
    rcases List.mem_cons.mp hx with hx | hx
    · subst hx
      exact pyLower_ne_colon c (Or.inl hca)
    · obtain ⟨y, hy, hyx⟩ := List.mem_map.mp hx
      subst hyx
      exact pyLower_ne_colon y (Or.inr (hcs y hy))
  have htake : (s ++ ':' :: t).takeWhile (fun x => x ≠ ':') = s := by
    rw [takeWhile_append_all _ s (':' :: t) hcolon, takeWhile_ne_cons_self, List.append_nil]
  have hdrop : (s ++ ':' :: t).dropWhile (fun x => x ≠ ':') = ':' :: t := by
    rw [dropWhile_append_all _ s (':' :: t) hcolon, List.dropWhile_cons]
    simp
  unfold splitScheme
  rw [htake, hdrop]
  rw [if_neg (by rw [hseq]; simp)]
  rw [if_pos ?hc]
  case hc =>
    rw [hseq]
    simp only [List.headD_cons, List.tail_cons, Bool.and_eq_true]
    refine ⟨isAlpha_pyLower c hca, ?_⟩
    rw [List.all_eq_true]
    intro x hx
    obtain ⟨y, hy, hyx⟩ := List.mem_map.mp hx
    subst hyx
    exact isSchemeChar_pyLower y (hcs y hy)
  rw [hseq]
  simp only [List.tail_cons, List.map_cons, pyLower_idem, List.map_map]
  rw [map_pyLower_idem]

lemma splitNetloc_fst_delim (r : Str) : ∀ x ∈ (splitNetloc r).1, isNetlocDelim x = false := by
  intro x hx
  have := mem_takeWhile_pred hx
  simpa using this

lemma splitNetloc_fst_subset (r : Str) : ∀ x ∈ (splitNetloc r).1, x ∈ r := by
  intro x hx
  exact mem_takeWhile_mem hx

lemma splitNetloc_snd_subset (r : Str) : ∀ x ∈ (splitNetloc r).2, x ∈ r := by
  intro x hx
  exact mem_dropWhile_mem hx

lemma splitNetloc_snd_shape (r : Str) :
    (splitNetloc r).2 = [] ∨ ∃ a t, (splitNetloc r).2 = a :: t ∧ isNetlocDelim a = true := by
  unfold splitNetloc
  cases hd : r.dropWhile (fun c => !isNetlocDelim c) with
  | nil => exact Or.inl rfl
  | cons a t =>
    refine Or.inr ⟨a, t, rfl, ?_⟩
    have := dropWhile_eq_cons_head hd
    simpa using this

lemma splitNetloc_reparse (n pth : Str) (hn : ∀ x ∈ n, isNetlocDelim x = false)
    (hp : pth = [] ∨ ∃ t, pth = '/' :: t) :
    splitNetloc (n ++ pth) = (n, pth) := by
  unfold splitNetloc
  have hall : ∀ a ∈ n, (fun c => !isNetlocDelim c) a = true := by
    intro a ha
    simp [hn a ha]
  have h1 : (n ++ pth).takeWhile (fun c => !isNetlocDelim c) = n := by
    rw [takeWhile_append_all _ n pth hall]
    rcases hp with hp | ⟨t, hp⟩
    · rw [hp]
      simp
    · rw [hp, List.takeWhile_cons]
      simp [isNetlocDelim, List.append_nil]
  have h2 : (n ++ pth).dropWhile (fun c => !isNetlocDelim c) = pth := by
    rw [dropWhile_append_all _ n pth hall]
    rcases hp with hp | ⟨t, hp⟩
    · rw [hp]; rfl
    · rw [hp, List.dropWhile_cons]
      simp [isNetlocDelim]
  rw [h1, h2]

lemma mem_afterLastSlash (l : Str) : ∀ x ∈ afterLastSlash l, x ∈ l := by
  intro x hx
  unfold afterLastSlash at hx
  rw [List.mem_reverse] at hx
  exact List.mem_reverse.mp (mem_takeWhile_mem hx)

lemma afterLastSlash_no_slash (l : Str) : ∀ x ∈ afterLastSlash l, x ≠ '/' := by
  intro x hx
  unfold afterLastSlash at hx
  rw [List.mem_reverse] at hx
  have := mem_takeWhile_pred hx
  simpa using this

lemma afterLastSlash_decomp (l : Str) (h : '/' ∈ l) :
    ∃ q, l = (q ++ ['/']) ++ afterLastSlash l ∧
      l.take (l.length - (afterLastSlash l).length) = q ++ ['/'] := by
  have hab := List.takeWhile_append_dropWhile (fun x => decide (x ≠ '/')) l.reverse
  have haf : afterLastSlash l = (l.reverse.takeWhile (fun x => decide (x ≠ '/'))).reverse := rfl
  cases hb : l.reverse.dropWhile (fun x => decide (x ≠ '/')) with
  | nil =>
    exfalso
    rw [hb, List.append_nil] at hab
    have h2 : '/' ∈ l.reverse.takeWhile (fun x => decide (x ≠ '/')) := by
      rw [hab, List.mem_reverse]
      exact h
    have := mem_takeWhile_pred h2
    simp at this
  | cons b0 w =>
    have hb0 : b0 = '/' := by
      have := dropWhile_eq_cons_head hb
      simpa using this
    subst hb0
    rw [hb] at hab
    have hl : l = (w.reverse ++ ['/']) ++ afterLastSlash l := by
      rw [haf]
      conv_lhs => rw [← List.reverse_reverse l, ← hab]
      simp
    refine ⟨w.reverse, hl, ?_⟩
    have hlen : l.length = (w.reverse ++ ['/']).length + (afterLastSlash l).length := by
      conv_lhs => rw [hl]
      simp
      omega
    have hk : l.length - (afterLastSlash l).length = (w.reverse ++ ['/']).length := by
      omega
    rw [hk]
    conv_lhs => rw [hl]
    exact List.take_left _ _

lemma afterLastSlash_append (q s : Str) (hs : ∀ x ∈ s, x ≠ '/') :
    afterLastSlash ((q ++ ['/']) ++ s) = s := by
  unfold afterLastSlash
  rw [List.reverse_append, List.reverse_append]
  rw [takeWhile_append_all _ s.reverse _
    (fun a ha => by simpa using hs a (List.mem_reverse.mp ha))]
  simp

lemma stepParams_fst_mem (p0 : Str) : ∀ x ∈ (stepParams p0).1, x ∈ p0 := by
  unfold stepParams
  by_cases h1 : ';' ∈ p0
  · rw [if_pos h1]
    unfold splitParamsPath
    by_cases h2 : '/' ∈ p0
    · rw [if_pos h2]
      by_cases h3 : ';' ∈ afterLastSlash p0
      · rw [if_pos h3]
        intro x hx
        rcases List.mem_append.mp hx with hx | hx
        · exact List.take_subset _ _ hx
        · exact mem_afterLastSlash p0 x (mem_takeWhile_mem hx)
      · rw [if_neg h3]
        intro x hx
        exact hx
    · rw [if_neg h2]
      unfold splitOnceAt
      intro x hx
      exact mem_takeWhile_mem hx
  · rw [if_neg h1]
    intro x hx
    exact hx

lemma stepParams_fst_shape (p0 : Str) (h : p0 = [] ∨ ∃ t, p0 = '/' :: t) :
    (stepParams p0).1 = [] ∨ ∃ t, (stepParams p0).1 = '/' :: t := by
  unfold stepParams
  by_cases h1 : ';' ∈ p0
  · rw [if_pos h1]
    rcases h with h | ⟨t, ht⟩
    · subst h
      simp at h1
    · unfold splitParamsPath
      have h2 : '/' ∈ p0 := by rw [ht]; simp
      rw [if_pos h2]
      by_cases h3 : ';' ∈ afterLastSlash p0
      · rw [if_pos h3]
        obtain ⟨q, hl, hk⟩ := afterLastSlash_decomp p0 h2
        rw [hk]
        cases q with
        | nil =>
          exact Or.inr ⟨_, rfl⟩
        | cons c q2 =>
          have hc : c = '/' := by
            rw [ht] at hl
            rw [List.cons_append, List.cons_append] at hl
            injection hl with h4 _
            exact h4.symm
          subst hc
          exact Or.inr ⟨_, rfl⟩
      · rw [if_neg h3]
        exact Or.inr ⟨t, ht⟩
  · rw [if_neg h1]
    exact h

lemma stepParams_fst_stable (p0 : Str) :
    stepParams (stepParams p0).1 = ((stepParams p0).1, []) := by
  by_cases h1 : ';' ∈ p0
  · have hstep : stepParams p0 = splitParamsPath p0 := by
      unfold stepParams
      rw [if_pos h1]
    rw [hstep]
    unfold splitParamsPath
    by_cases h2 : '/' ∈ p0
    · rw [if_pos h2]
      by_cases h3 : ';' ∈ afterLastSlash p0
      · rw [if_pos h3]
        obtain ⟨q, hl, hk⟩ := afterLastSlash_decomp p0 h2
        rw [hk]
        simp only []
        set sg := (afterLastSlash p0).takeWhile (fun x => x ≠ ';') with hsg
        by_cases h4 : ';' ∈ (q ++ ['/']) ++ sg
        · unfold stepParams
          rw [if_pos h4]
          unfold splitParamsPath
          have h5 : '/' ∈ (q ++ ['/']) ++ sg := by simp
          rw [if_pos h5]
          have h6 : afterLastSlash ((q ++ ['/']) ++ sg) = sg := by
            refine afterLastSlash_append q sg ?_
            intro x hx
            exact afterLastSlash_no_slash p0 x (mem_takeWhile_mem hx)
          rw [h6]
          rw [if_neg (not_mem_takeWhile_ne ';' (afterLastSlash p0))]
        · unfold stepParams
          rw [if_neg h4]
      · rw [if_neg h3]
        unfold stepParams
        rw [if_pos h1]
        unfold splitParamsPath
        rw [if_pos h2, if_neg h3]
    · rw [if_neg h2]
      unfold splitOnceAt
      unfold stepParams
      rw [if_neg (not_mem_takeWhile_ne ';' p0)]
  · have hstep : stepParams p0 = (p0, []) := by
      unfold stepParams
      rw [if_neg h1]
    rw [hstep]
    unfold stepParams
    rw [if_neg h1]

lemma splitOnceStep (d : Char) (m r : Str)
    (hr : r = (if d ∈ m then splitOnceAt d m else (m, [])).1) :
    (d ∉ r) ∧ (∀ x ∈ r, x ∈ m) ∧
    (m = [] → r = []) ∧
    (∀ c t, m = c :: t → c ≠ d → ∃ t2, r = c :: t2) ∧
    (∀ t, m = d :: t → r = []) := by
  by_cases hd : d ∈ m
  · rw [if_pos hd] at hr
    unfold splitOnceAt at hr
    subst hr
    refine ⟨not_mem_takeWhile_ne d m, fun x hx => mem_takeWhile_mem hx, ?_, ?_, ?_⟩
    · intro hm
      subst hm
      rfl
    · intro c t hm hcd
      subst hm
      rw [takeWhile_ne_cons_of_ne d c t hcd]
      exact ⟨_, rfl⟩
    · intro t hm
      subst hm
      exact takeWhile_ne_cons_self d t
  · rw [if_neg hd] at hr
    subst hr
    refine ⟨hd, fun x hx => hx, fun hm => hm, ?_, ?_⟩
    · intro c t hm _
      exact ⟨t, hm⟩
    · intro t hm
      exact absurd (hm ▸ List.mem_cons_self d t) hd

lemma fragQuery_facts (m p0 : Str)
    (hm : m = [] ∨ ∃ a t, m = a :: t ∧ isNetlocDelim a = true)
    (hp0 : p0 = (if '?' ∈ (if '#' ∈ m then splitOnceAt '#' m else (m, [])).1
                 then splitOnceAt '?' (if '#' ∈ m then splitOnceAt '#' m else (m, [])).1
                 else ((if '#' ∈ m then splitOnceAt '#' m else (m, [])).1, [])).1) :
    ('#' ∉ p0) ∧ ('?' ∉ p0) ∧ (p0 = [] ∨ ∃ t, p0 = '/' :: t) ∧ ∀ x ∈ p0, x ∈ m := by
  obtain ⟨hn1, hsub1, hnil1, hcons1, hhead1⟩ := splitOnceStep '#' m _ rfl
  obtain ⟨hn2, hsub2, hnil2, hcons2, hhead2⟩ := splitOnceStep '?'
    ((if '#' ∈ m then splitOnceAt '#' m else (m, [])).1) p0 hp0
  refine ⟨fun hc => hn1 (hsub2 _ hc), hn2, ?_, fun x hx => hsub1 x (hsub2 x hx)⟩
  rcases hm with hm | ⟨a, t, hm, hdelim⟩
  · exact Or.inl (hnil2 (hnil1 hm))
  · have hd3 : (a = '/' ∨ a = '?') ∨ a = '#' := by
      unfold isNetlocDelim at hdelim
      simpa using hdelim
    rcases hd3 with (ha | ha) | ha
    · subst ha
      obtain ⟨t2, ht2⟩ := hcons1 '/' t hm (by decide)
      obtain ⟨t3, ht3⟩ := hcons2 '/' t2 ht2 (by decide)
      exact Or.inr ⟨t3, ht3⟩
    · subst ha
      obtain ⟨t2, ht2⟩ := hcons1 '?' t hm (by decide)
      exact Or.inl (hhead2 t2 ht2)
    · subst ha
      exact Or.inl (hnil2 (hhead1 t hm))

lemma urlparse_ok_components (u : Str) (p : UrlParts)
    (hchars : ∀ c ∈ u, 32 < c.toNat ∧ c.toNat ≤ 126)
    (h : urlparse u = .ok p) (hsch : p.scheme ≠ []) (hnet : p.netloc ≠ []) :
    GoodParts p := by
  unfold urlparse at h
  cases hsp : urlsplit u with
  | error e =>
    rw [hsp] at h
    exact absurd h (by simp)
  | ok sp =>
    simp only [hsp] at h
    injection h with h
    subst h
    simp only [urlsplit] at hsp
    rw [cleanUrl_id u hchars] at hsp
    by_cases htk : (splitScheme u).2.take 2 = ['/', '/']
    · rw [if_pos htk] at hsp
      by_cases hbr : (((splitNetloc ((splitScheme u).2.drop 2)).1.contains '[') !=
          ((splitNetloc ((splitScheme u).2.drop 2)).1.contains ']')) = true
      · rw [if_pos hbr] at hsp
        exact absurd hsp (by simp)
      · rw [if_neg hbr] at hsp
        injection hsp with hsp
        subst hsp
        have hfq := fragQuery_facts ((splitNetloc ((splitScheme u).2.drop 2)).2) _
          (splitNetloc_snd_shape ((splitScheme u).2.drop 2)) rfl
        obtain ⟨hnohash, hnoq, hshape, hmem⟩ := hfq
        have hmem_u : ∀ x, x ∈ (splitNetloc ((splitScheme u).2.drop 2)).2 → x ∈ u := by
          intro x hx
          exact splitScheme_snd_subset u x
            (List.drop_subset 2 _ (splitNetloc_snd_subset _ x hx))
        refine ⟨?_, ?_, ?_, ?_, ?_, ?_, ?_, ?_⟩
        · obtain ⟨c, cs, hcs⟩ := splitScheme_good u hsch
          exact ⟨c, cs, hcs.1, hcs.2.1, hcs.2.2.1⟩
        · exact splitNetloc_fst_delim _
        · simpa using hbr
        · exact stepParams_fst_shape _ hshape
        · intro hc
          exact hnohash (stepParams_fst_mem _ '#' hc)
        · intro hc
          exact hnoq (stepParams_fst_mem _ '?' hc)
        · exact stepParams_fst_stable _
        · intro c hc
          rcases List.mem_append.mp hc with hc | hc
          · obtain ⟨c0, cs, hsc, hca, hcss, hc0u, hcsu⟩ := splitScheme_good u hsch
            rw [hsc] at hc
            rcases List.mem_cons.mp hc with hc | hc
            · subst hc
              exact charPrintable_pyLower c0 (hchars c0 hc0u)
            · obtain ⟨y, hy, hyx⟩ := List.mem_map.mp hc
              subst hyx
              exact charPrintable_pyLower y (hchars y (hcsu y hy))
          · rcases List.mem_append.mp hc with hc | hc
            · exact hchars c (splitScheme_snd_subset u c
                (List.drop_subset 2 _ (splitNetloc_fst_subset _ c hc)))
            · exact hchars c (hmem_u c (hmem c (stepParams_fst_mem _ c hc)))
    · rw [if_neg htk] at hsp
      rw [if_neg (by simp)] at hsp
      injection hsp with hsp
      subst hsp
      exact absurd rfl hnet

lemma urlsplit_reparse (p : UrlParts) (hg : GoodParts p) :
    urlsplit (p.scheme ++ ':' :: '/' :: '/' :: (p.netloc ++ p.path)) =
      .ok ⟨p.scheme, p.netloc, p.path, [], [], []⟩ := by
  obtain ⟨hs, hnd, hbr, hshape, hnohash, hnoq, _, hprint⟩ := hg
  have hclean : cleanUrl (p.scheme ++ ':' :: '/' :: '/' :: (p.netloc ++ p.path)) =
      p.scheme ++ ':' :: '/' :: '/' :: (p.netloc ++ p.path) := by
    apply cleanUrl_id
    intro c hc
    rcases List.mem_append.mp hc with hc | hc
    · exact hprint c (List.mem_append.mpr (Or.inl hc))
    · rcases List.mem_cons.mp hc with hc | hc
      · subst hc; exact ⟨by decide, by decide⟩
      · rcases List.mem_cons.mp hc with hc | hc
        · subst hc; exact ⟨by decide, by decide⟩
        · rcases List.mem_cons.mp hc with hc | hc
          · subst hc; exact ⟨by decide, by decide⟩
          · exact hprint c (List.mem_append.mpr (Or.inr hc))
  have hss := splitScheme_reparse p.scheme ('/' :: '/' :: (p.netloc ++ p.path)) hs
  have hnl := splitNetloc_reparse p.netloc p.path hnd hshape
  have htake2 : List.take 2 ('/' :: '/' :: (p.netloc ++ p.path)) = ['/', '/'] := rfl
  have hdrop2 : List.drop 2 ('/' :: '/' :: (p.netloc ++ p.path)) = p.netloc ++ p.path := rfl
  simp only [urlsplit]
  rw [hclean, hss]
  simp only [htake2, hdrop2, eq_self_iff_true, if_true, hnl]
  rw [if_neg (by rw [hbr]; simp)]
  simp only [if_neg hnohash]
  simp only [if_neg hnoq]

lemma urlparse_reparse (p : UrlParts) (hg : GoodParts p) :
    urlparse (p.scheme ++ ':' :: '/' :: '/' :: (p.netloc ++ p.path)) =
      .ok ⟨p.scheme, p.netloc, p.path, [], [], []⟩ := by
  unfold urlparse
  simp only [urlsplit_reparse p hg]
  obtain ⟨_, _, _, _, _, _, hstable, _⟩ := hg
  simp only [hstable]

/-- Claim C10: `normalize_url` is idempotent on well-formed absolute URLs
(printable-ASCII URLs that parse with a nonempty scheme and authority):
normalizing an already-normalized URL returns it unchanged.  (It is also pure
and deterministic, being a function.) -/
theorem C10_canonicalize_idempotent (u v : Str)
    (hwf : wellFormedAbsolute u = true) (h : normalize_url u = .ok v) :
    normalize_url v = .ok v := by
  obtain ⟨p, hp, hv⟩ := normalize_url_ok_elim h
  unfold wellFormedAbsolute at hwf
  rw [Bool.and_eq_true] at hwf
  obtain ⟨hchars0, hrest⟩ := hwf
  simp only [hp, Bool.and_eq_true] at hrest
  have hsch : p.scheme ≠ [] := by
    intro hc
    rw [hc] at hrest
    simp at hrest
  have hnet : p.netloc ≠ [] := by
    intro hc
    rw [hc] at hrest
    simp at hrest
  have hchars : ∀ c ∈ u, 32 < c.toNat ∧ c.toNat ≤ 126 := by
    intro c hc
    rw [List.all_eq_true] at hchars0
    have := hchars0 c hc
    simpa using this
  have hg := urlparse_ok_components u p hchars hp hsch hnet
  subst hv
  unfold normalize_url
  simp only [urlparse_reparse p hg]

/-- Witness for C10: normalizing the (already canonical) URL
`http://x.com/a` returns it unchanged. -/
theorem C10_canonicalize_idempotent_witness :
    normalize_url "http://x.com/a".data = .ok "http://x.com/a".data :=
  C10_canonicalize_idempotent "http://x.com/a".data "http://x.com/a".data
    (by decide) (by decide)

end Spider
